import Mathlib

/-!
# Verification of the EverMind LongContext Agent memory engine

A shallow embedding of the hybrid-retrieval and adaptive-compression core of
the EverMind LongContext Agent backend (`backend/retriever.py`,
`backend/summarizer.py`, `backend/memory_manager.py`), together with theorems
settling the specification claims about it.

Modelling conventions:
* machine floats become exact rationals (`ℚ`); the one transcendental formula,
  the temporal-decay exponential, is modelled over `ℝ`;
* the SQLite `memories` table becomes a `List Memory` in table order; SQL
  `WHERE`/`ORDER BY`/`LIMIT` become `List.filter`/stable sort/`List.take`;
* Python's `sorted`/`list.sort` (Timsort, stable) becomes insertion sort by a
  rational key (`sortK`), which places a new element before the first
  strictly-greater key and therefore preserves the original order of equal
  keys, exactly like Timsort;
* Python `dict` insertion (`d[k] = v`) becomes an order-preserving upsert on
  an association list, matching dict iteration order;
* the external OpenAI provider (embeddings, chat completion, tiktoken) is
  passed in as explicit function parameters, since every call to it is
  fallible and outside the embedded core.
-/

namespace EverMind

/-- Memory types, from `shared/models.py` (`MemoryType`). -/
inductive MemoryType where
  | conversation
  | summary
  | toolOutput
  | context
deriving DecidableEq, Repr

/-- The subset of the open `metadata` JSON map that the verified operations
read or write: the message `role` (used by `retrieve_context` for the context
text), the `compressed_memory_ids` list stored on summaries, and the
`compressed` tag set by `_mark_memories_compressed`. -/
structure Metadata where
  role : Option String := none
  compressedMemoryIds : List String := []
  compressed : Bool := false
deriving DecidableEq, Repr

/-- A row of the `memories` table / `shared/models.py` `Memory`. -/
structure Memory where
  id : String
  sessionId : String
  memoryType : MemoryType
  content : String
  relevanceScore : ℚ
  compressionRatio : ℚ
  tokenCount : ℕ
  timestamp : ℚ
  metadata : Metadata := {}
deriving DecidableEq, Repr

/-! ## Stable sorting by a rational key

Python's `sorted(xs, key=f)` and `xs.sort(key=f, reverse=True)` are stable.
We model them with Mathlib's `List.insertionSort` over the total preorder
`keyLe key` (for `reverse=True` the key is negated). -/

/-- `a` precedes-or-ties `b` under the rational sort key `key`. -/
def keyLe (key : α → ℚ) : α → α → Prop := fun a b => key a ≤ key b

instance (key : α → ℚ) : DecidableRel (keyLe key) :=
  fun a b => inferInstanceAs (Decidable (key a ≤ key b))

instance (key : α → ℚ) : IsTotal α (keyLe key) :=
  ⟨fun a b => le_total (key a) (key b)⟩

instance (key : α → ℚ) : IsTrans α (keyLe key) :=
  ⟨fun _ _ _ hab hbc => le_trans hab hbc⟩

/-- Stable ascending sort by a rational key (Python's stable `sorted`). -/
def sortK (key : α → ℚ) (l : List α) : List α :=
  List.insertionSort (keyLe key) l

/-! ## Hybrid retriever (`backend/retriever.py`)

`semantic_search` and `keyword_search` call the external OpenAI provider and
the vector index; `hybrid_search` consumes their result lists, so the two
branch results are parameters here (`HybridRetriever.hybrid_search` lines
315–395). A branch that raised is absorbed as `[]` by the caller, which is
just a particular parameter value. -/

/-- One slot of the `combined_scores` dict in `hybrid_search`. -/
structure Entry where
  memory : Memory
  semanticScore : ℚ
  keywordScore : ℚ
deriving DecidableEq, Repr

/-- The ids of a branch result list, in order. -/
def pairIds (l : List (Memory × ℚ)) : List String :=
  l.map (fun p => p.1.id)

/-- The ids of a dict-slot list, in order. -/
def entryIds (l : List Entry) : List String :=
  l.map (fun e => e.memory.id)

/-- The dict slot written for a semantic result:
`{memory, semantic_score: score, keyword_score: 0.0}`. -/
def mkSemEntry (p : Memory × ℚ) : Entry := ⟨p.1, p.2, 0⟩

/-- The dict slot written for a keyword-only result:
`{memory, semantic_score: 0.0, keyword_score: score}`. -/
def mkKwEntry (p : Memory × ℚ) : Entry := ⟨p.1, 0, p.2⟩

/-- The in-place `keyword_score` update for a keyword result whose id is
already present. -/
def updK (p : Memory × ℚ) (e : Entry) : Entry :=
  if e.memory.id = p.1.id then { e with keywordScore := p.2 } else e

/-- `combined_scores[memory.id] = {memory, semantic_score, keyword_score: 0}`
for one semantic result: order-preserving dict upsert keyed by memory id. -/
def addSemantic (acc : List Entry) (p : Memory × ℚ) : List Entry :=
  if acc.any (fun e => decide (e.memory.id = p.1.id)) then
    acc.map (fun e => if e.memory.id = p.1.id then mkSemEntry p else e)
  else acc ++ [mkSemEntry p]

/-- For one keyword result: update `keyword_score` in place if the id is
already present, else insert a fresh slot with `semantic_score = 0`. -/
def addKeyword (acc : List Entry) (p : Memory × ℚ) : List Entry :=
  if acc.any (fun e => decide (e.memory.id = p.1.id)) then
    acc.map (updK p)
  else acc ++ [mkKwEntry p]

/-- The final `keyword_score` a dict slot ends with after the keyword loop:
the score of the keyword result with the slot's id, if any. -/
def kwPatch (kw : List (Memory × ℚ)) (e : Entry) : Entry :=
  match kw.find? (fun p => decide (p.1.id = e.memory.id)) with
  | some p => { e with keywordScore := p.2 }
  | none => e

/-- The dict slots appended by the keyword loop: keyword results whose id
was not produced by the semantic branch, in branch order. -/
def kwOnlyEntries (semanticResults keywordResults : List (Memory × ℚ)) :
    List Entry :=
  (keywordResults.filter
    (fun p => decide (p.1.id ∉ pairIds semanticResults))).map mkKwEntry

/-- The `combined_scores` dict of `hybrid_search` in iteration order:
semantic results first, then keyword results. -/
def combinedEntries (semanticResults keywordResults : List (Memory × ℚ)) :
    List Entry :=
  keywordResults.foldl addKeyword (semanticResults.foldl addSemantic [])

/-- `hybrid_score = semantic_score * 0.7 + keyword_score * 0.3`
(`semantic_weight = 0.7`, `keyword_weight = 0.3`). -/
def hybridScore (e : Entry) : ℚ :=
  e.semanticScore * (7 / 10) + e.keywordScore * (3 / 10)

/-- `final_results` before the relevance filter: each dict slot paired with
its fused score, in dict iteration order. -/
def scoredPairs (semanticResults keywordResults : List (Memory × ℚ)) :
    List (Memory × ℚ) :=
  (combinedEntries semanticResults keywordResults).map
    (fun e => (e.memory, hybridScore e))

/-- `final_results` after `if hybrid_score >= min_relevance`. -/
def filteredPairs (semanticResults keywordResults : List (Memory × ℚ))
    (minRelevance : ℚ) : List (Memory × ℚ) :=
  (scoredPairs semanticResults keywordResults).filter
    (fun p => decide (minRelevance ≤ p.2))

/-- The merge/rank phase of `hybrid_search`: fuse branch results, drop fused
scores below `min_relevance`, stable-sort by score descending
(`final_results.sort(key=lambda x: x[1], reverse=True)`), truncate to
`limit`, and return the memories. -/
def hybridSearchMerge (semanticResults keywordResults : List (Memory × ℚ))
    (minRelevance : ℚ) (limit : ℕ) : List Memory :=
  ((sortK (fun p => -p.2)
      (filteredPairs semanticResults keywordResults minRelevance)).take
    limit).map Prod.fst

/-- `db.get_memories(session_id, [MemoryType.CONVERSATION], limit=20)`:
`SELECT`, filtered by session and conversation type,
`ORDER BY timestamp DESC LIMIT 20` (`database.py` lines 431–470). -/
def getRecentMemories (db : List Memory) (sid : String) : List Memory :=
  (sortK (fun m => -m.timestamp)
    (db.filter (fun m =>
      decide (m.sessionId = sid ∧ m.memoryType = MemoryType.conversation)))).take 20

/-- A Python dict upsert for `all_memories[memory.id] = memory`: replace in
place if the id exists, else append. -/
def dictAdd (acc : List Memory) (m : Memory) : List Memory :=
  if acc.any (fun x => decide (x.id = m.id)) then
    acc.map (fun x => if x.id = m.id then m else x)
  else acc ++ [m]

/-- Insert a list of memories into the dict in order. -/
def dictAddAll (acc : List Memory) (ms : List Memory) : List Memory :=
  ms.foldl dictAdd acc

/-- `current_tokens + memory.token_count <= max_tokens` accumulation loop of
`retrieve_context`: take memories in order while they fit, `break` at the
first one whose addition would exceed the budget. -/
def greedySelect (maxTokens : ℕ) : ℕ → List Memory → List Memory
  | _, [] => []
  | currentTokens, m :: rest =>
    if currentTokens + m.tokenCount ≤ maxTokens then
      m :: greedySelect maxTokens (currentTokens + m.tokenCount) rest
    else []

/-- One `"[ROLE] content"` block of the context string. -/
def contextBlock (m : Memory) : String :=
  match m.metadata.role with
  | some r => "[" ++ r.toUpper ++ "] " ++ m.content
  | none => m.content

/-- The deduplicated union built by `retrieve_context`: the last 10 recent
conversation memories (`recent_memories[-10:]`) inserted first, then the
hybrid-search results (later dict assignment wins on id conflict). -/
def contextUnion (db : List Memory)
    (semanticResults keywordResults : List (Memory × ℚ)) (sid : String) :
    List Memory :=
  let recentMemories := getRecentMemories db sid
  let lastTen := recentMemories.drop (recentMemories.length - 10)
  dictAddAll (dictAddAll [] lastTen)
    (hybridSearchMerge semanticResults keywordResults (3 / 10) 15)

/-- `HybridRetriever.retrieve_context` (lines 397–456): recent ∪ relevant,
deduplicated by id, sorted chronologically ascending, greedily packed into
the token budget, rendered as blocks joined by blank lines. -/
def retrieveContext (db : List Memory)
    (semanticResults keywordResults : List (Memory × ℚ)) (sid : String)
    (maxTokens : ℕ) : List Memory × String :=
  let sortedMemories :=
    sortK (fun m => m.timestamp)
      (contextUnion db semanticResults keywordResults sid)
  let selected := greedySelect maxTokens 0 sortedMemories
  (selected, String.intercalate "\n\n" (selected.map contextBlock))

/-! ## Compression (`backend/summarizer.py`, `backend/memory_manager.py`)

`generate_summary` calls the external chat-completion provider and
`calculate_token_count` calls tiktoken; both are parameters (`summarize`,
`tok`). `generate_id` is random, so the fresh id is a parameter. Store writes
are modelled as succeeding; the metrics table is not modelled. -/

/-- `ContextSummarizer._find_compressible_memories` (lines 249–285): rows of
the session older than the cutoff, not summaries, with `relevance_score`
above the 0.3 threshold, `ORDER BY timestamp ASC`. -/
def findCompressibleMemories (db : List Memory) (sid : String)
    (cutoff : ℚ) : List Memory :=
  sortK (fun m => m.timestamp)
    (db.filter (fun m => decide (m.sessionId = sid ∧ m.timestamp < cutoff ∧
      m.memoryType ≠ MemoryType.summary ∧ (3 / 10) < m.relevanceScore)))

/-- `original_tokens / summary_tokens if summary_tokens > 0 else 1.0` — the
guarded compression-ratio computation, written identically in
`summarizer.py` lines 104/193 and `memory_manager.py` line 296. -/
def computeCompressionRatio (originalTokens summaryTokens : ℕ) : ℚ :=
  if 0 < summaryTokens then (originalTokens : ℚ) / (summaryTokens : ℚ) else 1

/-- The row update run by `_mark_memories_compressed` for batch member `m`
on the stored row `x` with `x.id = m.id`: the new relevance is the
Python-side snapshot `memory.relevance_score * 0.2`, and the metadata gains
`compressed = 'true'`. -/
def markCompressedUpdate (m x : Memory) : Memory :=
  { x with relevanceScore := m.relevanceScore * (1 / 5)
           metadata := { x.metadata with compressed := true } }

/-- `ContextSummarizer._mark_memories_compressed` (lines 287–303): for every
batch member, `UPDATE memories SET relevance_score = ?,
metadata = json_set(metadata, '$.compressed', 'true', ...) WHERE id = ?`. -/
def markMemoriesCompressed (db : List Memory) (batch : List Memory) :
    List Memory :=
  batch.foldl (fun acc m =>
    acc.map (fun x => if x.id = m.id then markCompressedUpdate m x else x)) db

/-- `ContextSummarizer.compress_memory_batch` (lines 165–247): find eligible
memories; fewer than `min_memories_to_compress = 5` → no-op; truncate to
`max_memories_per_summary = 20`; summarization failure (`None` or an empty
string — `if not summary_content`) → no-op; otherwise persist a Summary
memory (`relevance 0.8`, guarded ratio, metadata holding the compressed ids)
and mark the originals compressed. Returns the summary (if any) and the new
memories table. -/
def compressMemoryBatch (tok : String → ℕ)
    (summarize : List Memory → Option String) (newId : String) (now : ℚ)
    (db : List Memory) (sid : String) (cutoff : ℚ) :
    Option Memory × List Memory :=
  let eligible := findCompressibleMemories db sid cutoff
  if eligible.length < 5 then (none, db)
  else
    let batch := eligible.take 20
    match summarize batch with
    | none => (none, db)
    | some summaryContent =>
      if summaryContent = "" then (none, db)
      else
      let originalTokens := (batch.map Memory.tokenCount).sum
      let summaryTokens := tok summaryContent
      let summaryMemory : Memory := {
        id := newId
        sessionId := sid
        memoryType := MemoryType.summary
        content := summaryContent
        relevanceScore := 8 / 10
        compressionRatio := computeCompressionRatio originalTokens summaryTokens
        tokenCount := summaryTokens
        timestamp := now
        metadata := { compressedMemoryIds := batch.map Memory.id } }
      (some summaryMemory, markMemoriesCompressed (db ++ [summaryMemory]) batch)

/-- The row update of `_compress_old_memories` for each original:
`UPDATE memories SET relevance_score = relevance_score * 0.3 WHERE id = ?`
— a server-side multiply of the current value, with no `compressed` tag. -/
def oldDecayUpdate (_m x : Memory) : Memory :=
  { x with relevanceScore := x.relevanceScore * (3 / 10) }

/-- The rows selected by `_compress_old_memories`: session rows older than
one hour, not summaries, still at `compression_ratio = 1.0`,
`ORDER BY timestamp ASC LIMIT 20`. -/
def oldCompressibleRows (now : ℚ) (db : List Memory) (sid : String) :
    List Memory :=
  (sortK (fun m => m.timestamp)
    (db.filter (fun m => decide (m.sessionId = sid ∧
      m.timestamp < now - 3600 ∧
      m.memoryType ≠ MemoryType.summary ∧ m.compressionRatio = 1)))).take 20

/-- `MemoryManager._compress_old_memories` (lines 252–335): its own eligible
query (cutoff fixed one hour ago, `compression_ratio = 1.0` instead of a
relevance bound, `LIMIT 20`), fewer than 5 rows → no-op; otherwise builds the
placeholder summary text `"Summary of N messages: <first 200 chars>..."`,
stores a Summary with `relevance 0.7` (metadata key `compressed_memories`,
modelled by the same `compressedMemoryIds` field), then decays each original
in place by ×0.3. -/
def compressOldMemories (tok : String → ℕ) (newId : String) (now : ℚ)
    (db : List Memory) (sid : String) : List Memory :=
  let rows := oldCompressibleRows now db sid
  if rows.length < 5 then db
  else
    let combinedContent := String.intercalate "\n" (rows.map Memory.content)
    let summaryContent := "Summary of " ++ toString rows.length ++
      " messages: " ++ combinedContent.take 200 ++ "..."
    let originalTokens := (rows.map Memory.tokenCount).sum
    let summaryTokens := tok summaryContent
    let summaryMemory : Memory := {
      id := newId
      sessionId := sid
      memoryType := MemoryType.summary
      content := summaryContent
      relevanceScore := 7 / 10
      compressionRatio := computeCompressionRatio originalTokens summaryTokens
      tokenCount := summaryTokens
      timestamp := now
      metadata := { compressedMemoryIds := rows.map Memory.id } }
    rows.foldl (fun acc m =>
      acc.map (fun x => if x.id = m.id then oldDecayUpdate m x else x))
      (db ++ [summaryMemory])

/-- The dict built by `ContextSummarizer._get_session_memory_stats`
(lines 335–368): aggregates over the session's rows. SQL `SUM` of no rows is
`NULL`, mapped to 0 by the `or 0` fallbacks; `MIN`/`MAX` of no rows are
`NULL`, i.e. `none`. Note the dict carries no `session_id` key. -/
structure SessionStats where
  totalMemories : ℕ
  totalTokens : ℕ
  oldestMemory : Option ℚ
  newestMemory : Option ℚ
  summaryCount : ℕ
deriving DecidableEq, Repr

/-- `_get_session_memory_stats` for a session, over the memories table. -/
def getSessionMemoryStats (db : List Memory) (sid : String) : SessionStats :=
  let rows := db.filter (fun m => decide (m.sessionId = sid))
  { totalMemories := rows.length
    totalTokens := (rows.map Memory.tokenCount).sum
    oldestMemory := (rows.map Memory.timestamp).min?
    newestMemory := (rows.map Memory.timestamp).max?
    summaryCount :=
      (rows.filter (fun m => decide (m.memoryType = MemoryType.summary))).length }

/-- `stats.get("session_id")` as evaluated at `summarizer.py` line 410: the
stats dict built by `_get_session_memory_stats` never contains a
`"session_id"` key, so `.get` always returns `None`. -/
def SessionStats.getSessionId (_ : SessionStats) : Option String := none

/-- The validation count of `_calculate_compression_points` (lines 406–412):
`SELECT COUNT(*) FROM memories WHERE session_id = ? AND timestamp < ? AND
memory_type != 'summary'`, where the session parameter may be SQL `NULL`
(Python `None`); `session_id = NULL` is never true in SQL, so a `NULL`
parameter matches no row. -/
def countEligibleForPoint (db : List Memory) (sidOpt : Option String)
    (cutoff : ℚ) : ℕ :=
  (db.filter (fun m =>
    (match sidOpt with
     | none => false
     | some s => decide (m.sessionId = s)) &&
    decide (m.timestamp < cutoff ∧ m.memoryType ≠ MemoryType.summary))).length

/-- `ContextSummarizer._calculate_compression_points` (lines 370–419):
candidate cutoffs from the session time span (span < 1h → 30 minutes ago;
span < 1 day → 4h and 1h ago; otherwise one per day back, up to 7), then
keep only cutoffs with at least `min_memories_to_compress = 5` eligible
memories — counted with `stats.get("session_id")`. -/
def calculateCompressionPoints (now : ℚ) (db : List Memory)
    (stats : SessionStats) : List ℚ :=
  match stats.oldestMemory, stats.newestMemory with
  | some oldest, some newest =>
    let span := newest - oldest
    let candidates : List ℚ :=
      if span < 3600 then [now - 1800]
      else if span < 86400 then [now - 14400, now - 3600]
      else
        let daysBack := min 7 (⌊span / 86400⌋.toNat + 1)
        ((List.range daysBack).drop 1).map (fun d => now - 86400 * (d : ℚ))
    candidates.filter
      (fun point => decide (5 ≤ countEligibleForPoint db stats.getSessionId point))
  | _, _ => []

/-- The sequential cutoff loop of `adaptive_compression` (lines 321–327):
process the valid cutoffs in order, threading the memories table, collecting
the summaries actually created; `i` indexes the fresh summary ids. -/
def compressLoop (tok : String → ℕ)
    (summarize : List Memory → Option String) (newIds : ℕ → String)
    (now : ℚ) (sid : String) :
    List ℚ → ℕ → List Memory → List Memory × List Memory
  | [], _, db => ([], db)
  | point :: rest, i, db =>
    match compressMemoryBatch tok summarize (newIds i) now db sid point with
    | (some s, db1) =>
      let next := compressLoop tok summarize newIds now sid rest (i + 1) db1
      (s :: next.1, next.2)
    | (none, db1) => compressLoop tok summarize newIds now sid rest (i + 1) db1

/-- `ContextSummarizer.adaptive_compression` (lines 305–333): below the token
threshold → no-op; otherwise compress one batch per valid cutoff point.
Returns the summaries created and the final memories table. -/
def adaptiveCompression (tok : String → ℕ)
    (summarize : List Memory → Option String) (newIds : ℕ → String)
    (threshold : ℕ) (now : ℚ) (db : List Memory) (sid : String) :
    List Memory × List Memory :=
  let stats := getSessionMemoryStats db sid
  if stats.totalTokens < threshold then ([], db)
  else
    compressLoop tok summarize newIds now sid
      (calculateCompressionPoints now db stats) 0 db

/-- `MemoryManager.recompute_relevance_scores` (lines 469–484):
`UPDATE memories SET relevance_score = relevance_score * 0.95 WHERE
session_id = ? AND timestamp < datetime('now', '-1 day')`. -/
def recomputeRelevanceScores (now : ℚ) (db : List Memory) (sid : String) :
    List Memory :=
  db.map (fun m =>
    if m.sessionId = sid ∧ m.timestamp < now - 86400 then
      { m with relevanceScore := m.relevanceScore * (19 / 20) }
    else m)

/-! ## The `save_message` control flow (`memory_manager.py` lines 88–113)

`save_message` is an `async def` whose body is a straight line of `await`ed
calls; an `await e` completes all of `e`'s work before the next statement
runs, so the observable effects of one call of `save_message` form a
sequential trace. We record that trace: the message insert, the derived
memory insert, the session timestamp update, then whatever
`_check_compression_needed` (lines 238–250) does — it sums the session's
token counts and, above the threshold, `await`s `_compress_old_memories` —
and finally the `return True` to the caller. -/

/-- An observable step of one `save_message` call. -/
inductive Effect where
  | dbSaveMessage
  | dbSaveMemory
  | dbUpdateSession
  | compressionPass
  | ret (ok : Bool)
deriving DecidableEq, Repr

/-- The token total computed by `_check_compression_needed`:
`get_memories(session_id, limit=1000)` and sum of `token_count`. `db` is the
memories table as of the check (it already holds the new memory). -/
def sessionTokenTotal (db : List Memory) (sid : String) : ℕ :=
  ((((sortK (fun m => -m.timestamp)
      (db.filter (fun m => decide (m.sessionId = sid)))).take 1000)).map
    Memory.tokenCount).sum

/-- Effects of `await self._check_compression_needed(session_id)`: above the
threshold it `await`s the full `_compress_old_memories` pass. -/
def checkCompressionTrace (db : List Memory) (sid : String)
    (threshold : ℕ) : List Effect :=
  if threshold < sessionTokenTotal db sid then [Effect.compressionPass] else []

/-- The sequential effect trace of one successful `save_message` call. -/
def saveMessageTrace (db : List Memory) (sid : String) (threshold : ℕ) :
    List Effect :=
  [Effect.dbSaveMessage, Effect.dbSaveMemory, Effect.dbUpdateSession] ++
    checkCompressionTrace db sid threshold ++ [Effect.ret true]

/-! ## Temporal decay (`retriever.py` lines 148–155)

The one transcendental formula; modelled over `ℝ`. -/

/-- `max(0.1, 2 ** (-age_days / relevance_decay_days))` with
`relevance_decay_days = 7`. -/
noncomputable def decayOfAge (ageDays : ℝ) : ℝ :=
  max (1 / 10) ((2 : ℝ) ^ (-ageDays / 7))

/-- `HybridRetriever.calculate_temporal_decay`: age in days is
`(now - timestamp).total_seconds() / 86400`. -/
noncomputable def calculateTemporalDecay (now ts : ℝ) : ℝ :=
  decayOfAge ((now - ts) / 86400)

/-! ## Concrete inputs used by witnesses and counterexamples

Batteries marks `Rat.mul`/`Rat.inv`/`Rat.add`/`Rat.sub` `@[irreducible]`;
witnesses evaluate concrete runs by `decide`, which needs them unfolded. -/

attribute [local semireducible] Rat.mul Rat.inv Rat.add Rat.sub

/-- The `ImportError` fallback of `utils.calculate_token_count`
(`utils.py` line 123): `len(text) // 4`. -/
def calculateTokenCountFallback (s : String) : ℕ := s.length / 4

/-- A degenerate tokenizer (used where only the zero case matters). -/
def tokZero : String → ℕ := fun _ => 0

/-- A summarization provider that always returns a fixed summary. -/
def exSummarize : List Memory → Option String := fun _ => some "ok"

/-- Fresh-id supply for `adaptive_compression` loops. -/
def exIds : ℕ → String := fun i => "sum" ++ toString i

/-- A plain conversation memory of session `"s"`. -/
def exMem (i : String) (ts : ℚ) : Memory :=
  { id := i
    sessionId := "s"
    memoryType := MemoryType.conversation
    content := "hello"
    relevanceScore := 1
    compressionRatio := 1
    tokenCount := 10
    timestamp := ts }

/-- Five compressible conversation memories, timestamps 0..4. -/
def dbFive : List Memory :=
  [exMem "m1" 0, exMem "m2" 1, exMem "m3" 2, exMem "m4" 3, exMem "m5" 4]

/-- The summary produced from `dbFive` by a tokenizer reporting 0 tokens. -/
def exSummaryZero : Memory :=
  { id := "sum1"
    sessionId := "s"
    memoryType := MemoryType.summary
    content := "ok"
    relevanceScore := 8 / 10
    compressionRatio := 1
    tokenCount := 0
    timestamp := 999
    metadata := { compressedMemoryIds := ["m1", "m2", "m3", "m4", "m5"] } }

/-- Spec Scenario B: a session of 30 conversation memories, ages spread over
the last two hours, totalling exactly 10000 tokens. -/
def scenarioBNow : ℚ := 100000

/-- The Scenario B memories table. -/
def scenarioB : List Memory :=
  (List.range 30).map (fun i =>
    { id := "m" ++ toString i
      sessionId := "s"
      memoryType := MemoryType.conversation
      content := "hello"
      relevanceScore := 1
      compressionRatio := 1
      tokenCount := if i = 0 then 314 else 334
      timestamp := scenarioBNow - 7200 + 240 * (i : ℚ) })

/-- A single huge conversation memory, enough to cross the 8000 threshold. -/
def exBigMem : Memory :=
  { id := "big"
    sessionId := "s"
    memoryType := MemoryType.conversation
    content := "hello"
    relevanceScore := 1
    compressionRatio := 1
    tokenCount := 9000
    timestamp := 0 }

/-- A conversation memory old enough for the daily decay. -/
def exOldMem : Memory :=
  { id := "old1"
    sessionId := "s"
    memoryType := MemoryType.conversation
    content := "hello"
    relevanceScore := 1
    compressionRatio := 1
    tokenCount := 1
    timestamp := 0 }

/-- A session with a single memory — below the batch minimum. -/
def dbOne : List Memory := [exMem "m1" 0]

/-- Two memories for the tie-break counterexample. -/
def exMemA : Memory := exMem "a" 0

/-- The more recent of the two tied memories. -/
def exMemB : Memory := exMem "b" 10

/-- The cumulative effect of the per-row id-keyed updates on a stored row:
the update of the (unique) batch member with the row's id, if any. -/
def applyUpdate (f : Memory → Memory → Memory) (batch : List Memory)
    (x : Memory) : Memory :=
  match batch.find? (fun m => decide (m.id = x.id)) with
  | some m => f m x
  | none => x

/-! ## Theorems -/

theorem sortK_perm (key : α → ℚ) (l : List α) : List.Perm (sortK key l) l :=
  List.perm_insertionSort (keyLe key) l

theorem sortK_sorted (key : α → ℚ) (l : List α) :
    (sortK key l).Pairwise (keyLe key) :=
  List.sorted_insertionSort (keyLe key) l

theorem mem_sortK (key : α → ℚ) (l : List α) (a : α) :
    a ∈ sortK key l ↔ a ∈ l :=
  (sortK_perm key l).mem_iff

/-- In a sorted list, inserting an element whose key differs from `q` does not
change the subsequence of elements whose key equals `q`. -/
theorem orderedInsert_filter_of_ne (key : α → ℚ) (q : ℚ) (x : α)
    (hx : key x ≠ q) (l : List α) :
    (List.orderedInsert (keyLe key) x l).filter (fun a => decide (key a = q)) =
      l.filter (fun a => decide (key a = q)) := by
  induction l with
  | nil => simp [List.orderedInsert, hx]
  | cons y ys ih =>
    by_cases h : keyLe key x y
    · simp [List.orderedInsert, h, hx]
    · simp only [List.orderedInsert, if_neg h]
      by_cases hy : key y = q
      · simp [hy, ih]
      · simp [hy, ih]

/-- In a sorted list, inserting an element whose key equals `q` prepends it to
the subsequence of elements whose key equals `q` (the inserted element comes
first — counterpart of processing order in a stable sort). -/
theorem orderedInsert_filter_of_eq (key : α → ℚ) (q : ℚ) (x : α)
    (hx : key x = q) (l : List α) (hs : l.Pairwise (keyLe key)) :
    (List.orderedInsert (keyLe key) x l).filter (fun a => decide (key a = q)) =
      x :: l.filter (fun a => decide (key a = q)) := by
  induction l with
  | nil => simp [List.orderedInsert, hx]
  | cons y ys ih =>
    by_cases h : keyLe key x y
    · simp [List.orderedInsert, h, hx]
    · have hyq : key y ≠ q := by
        intro hyq
        exact h (le_of_eq (hx.trans hyq.symm) : keyLe key x y)
      simp only [List.orderedInsert, if_neg h, List.filter_cons,
        decide_eq_true_eq, if_neg hyq]
      rw [ih (List.Pairwise.of_cons hs)]

/-- Stability of `sortK`: for every key value `q`, the subsequence of elements
whose key equals `q` is the same before and after sorting. -/
theorem sortK_stable (key : α → ℚ) (q : ℚ) (l : List α) :
    (sortK key l).filter (fun a => decide (key a = q)) =
      l.filter (fun a => decide (key a = q)) := by
  induction l with
  | nil => rfl
  | cons a l ih =>
    show (List.orderedInsert (keyLe key) a (sortK key l)).filter _ = _
    by_cases ha : key a = q
    · rw [orderedInsert_filter_of_eq key q a ha _ (sortK_sorted key l), ih]
      simp [ha]
    · rw [orderedInsert_filter_of_ne key q a ha, ih]
      simp [ha]

/-- The greedy loop never exceeds the remaining budget. -/
theorem greedySelect_tokens_le (maxTokens : ℕ) :
    ∀ (l : List Memory) (currentTokens : ℕ), currentTokens ≤ maxTokens →
      currentTokens + ((greedySelect maxTokens currentTokens l).map
        Memory.tokenCount).sum ≤ maxTokens := by
  intro l
  induction l with
  | nil => intro c hc; simpa [greedySelect] using hc
  | cons m rest ih =>
    intro c hc
    by_cases h : c + m.tokenCount ≤ maxTokens
    · have := ih (c + m.tokenCount) h
      simpa [greedySelect, h, Nat.add_assoc] using this
    · simpa [greedySelect, h] using hc

/-- The greedy loop returns a prefix of its input (it only ever `break`s). -/
theorem greedySelect_eq_take (maxTokens : ℕ) :
    ∀ (l : List Memory) (currentTokens : ℕ),
      ∃ n, greedySelect maxTokens currentTokens l = l.take n := by
  intro l
  induction l with
  | nil => exact fun _ => ⟨0, rfl⟩
  | cons m rest ih =>
    intro c
    by_cases h : c + m.tokenCount ≤ maxTokens
    · obtain ⟨n, hn⟩ := ih (c + m.tokenCount)
      exact ⟨n + 1, by simp [greedySelect, h, hn]⟩
    · exact ⟨0, by simp [greedySelect, h]⟩

/-! ## Claim theorems -/

/-- Claim C1: for every query (i.e. every pair of branch result lists),
session and token budget, `retrieve_context` selects exactly the greedy
chronological prefix of the deduplicated recent ∪ relevant union — a prefix
of the chronologically ascending sort, stopped at the first memory whose
addition would exceed the budget — and the summed `token_count` of the
returned memories never exceeds `maxTokens`. -/
theorem retrieve_context_token_budget (db : List Memory)
    (semanticResults keywordResults : List (Memory × ℚ)) (sid : String)
    (maxTokens : ℕ) :
    (retrieveContext db semanticResults keywordResults sid maxTokens).1 =
      greedySelect maxTokens 0 (sortK (fun m => m.timestamp)
        (contextUnion db semanticResults keywordResults sid)) ∧
    (∃ n, (retrieveContext db semanticResults keywordResults sid maxTokens).1 =
      (sortK (fun m => m.timestamp)
        (contextUnion db semanticResults keywordResults sid)).take n) ∧
    ((retrieveContext db semanticResults keywordResults sid maxTokens).1.map
        Memory.tokenCount).sum ≤ maxTokens := by
  refine ⟨rfl, greedySelect_eq_take maxTokens _ 0, ?_⟩
  simpa using greedySelect_tokens_le maxTokens
    (sortK (fun m => m.timestamp)
      (contextUnion db semanticResults keywordResults sid)) 0 (Nat.zero_le _)

/-- Claim C6: `calculate_temporal_decay` computes
`max(0.1, 2^(-ageDays/7))`: it equals 1 at age 0, is monotonically
non-increasing in age, and never falls below the 0.1 floor. -/
theorem temporal_decay_spec :
    decayOfAge 0 = 1 ∧
    (∀ a b : ℝ, a ≤ b → decayOfAge b ≤ decayOfAge a) ∧
    (∀ a : ℝ, 1 / 10 ≤ decayOfAge a) ∧
    (∀ now : ℝ, calculateTemporalDecay now now = 1) := by
  have h0 : decayOfAge 0 = 1 := by
    unfold decayOfAge
    rw [neg_zero, zero_div, Real.rpow_zero]
    exact max_eq_right (by norm_num)
  refine ⟨h0, ?_, ?_, ?_⟩
  · intro a b hab
    unfold decayOfAge
    exact max_le_max le_rfl
      (Real.rpow_le_rpow_of_exponent_le one_le_two (by linarith))
  · intro a
    exact le_max_left _ _
  · intro now
    rw [calculateTemporalDecay, sub_self, zero_div, h0]

/-- Witness for C6 at a concrete age pair. -/
theorem temporal_decay_spec_witness :
    (0 : ℝ) ≤ 1 ∧ decayOfAge 1 ≤ decayOfAge 0 :=
  ⟨zero_le_one, temporal_decay_spec.2.1 0 1 zero_le_one⟩

/-- Claim C10: the compression-ratio computation is guarded against a
zero-token summary — it yields 1 instead of dividing by zero, and a summary
memory created by `compress_memory_batch` with `token_count = 0` carries
`compression_ratio = 1`. -/
theorem compression_ratio_zero_guard (tok : String → ℕ)
    (summarize : List Memory → Option String) (newId : String) (now : ℚ)
    (db : List Memory) (sid : String) (cutoff : ℚ) :
    (∀ originalTokens : ℕ, computeCompressionRatio originalTokens 0 = 1) ∧
    (∀ originalTokens summaryTokens : ℕ, 0 < summaryTokens →
      computeCompressionRatio originalTokens summaryTokens =
        (originalTokens : ℚ) / (summaryTokens : ℚ)) ∧
    (∀ summ db2,
      compressMemoryBatch tok summarize newId now db sid cutoff =
        (some summ, db2) →
      summ.tokenCount = 0 → summ.compressionRatio = 1) := by
  refine ⟨fun o => by simp [computeCompressionRatio],
    fun o s hs => by simp [computeCompressionRatio, hs], ?_⟩
  intro summ db2 h htok
  unfold compressMemoryBatch at h
  by_cases h5 : (findCompressibleMemories db sid cutoff).length < 5
  · simp [h5] at h
  · simp only [if_neg h5] at h
    cases hsum :
        summarize ((findCompressibleMemories db sid cutoff).take 20) with
    | none => rw [hsum] at h; simp at h
    | some summaryContent =>
      rw [hsum] at h
      by_cases hempty : summaryContent = ""
      · simp [hempty] at h
      simp only [if_neg hempty, Prod.mk.injEq, Option.some.injEq] at h
      obtain ⟨rfl, -⟩ := h
      simp only at htok
      simp [computeCompressionRatio, htok]

/-- `session_id = NULL` matches no row, so the validation count with a
`None` session parameter is always 0. -/
theorem countEligibleForPoint_none (db : List Memory) (cutoff : ℚ) :
    countEligibleForPoint db none cutoff = 0 := by
  simp [countEligibleForPoint]

/-- Claim C4 (refuted — code bug): `_calculate_compression_points` validates
every candidate cutoff with `stats.get("session_id")`, but the stats dict of
`_get_session_memory_stats` never contains that key, so the count runs with
`session_id = NULL`, is always 0, and every cutoff is rejected. Hence the
compression-point list is always empty, `adaptive_compression` never
compresses anything, and on the spec's Scenario B session (30 conversation
memories, 10000 tokens, above the 8000 threshold) it creates zero summaries
instead of the claimed one. -/
theorem adaptive_compression_dead_filter :
    (∀ (now : ℚ) (db : List Memory) (stats : SessionStats),
      calculateCompressionPoints now db stats = []) ∧
    (∀ (tok : String → ℕ) (summarize : List Memory → Option String)
      (newIds : ℕ → String) (threshold : ℕ) (now : ℚ) (db : List Memory)
      (sid : String),
      adaptiveCompression tok summarize newIds threshold now db sid =
        ([], db)) ∧
    (getSessionMemoryStats scenarioB "s").totalTokens = 10000 ∧
    adaptiveCompression calculateTokenCountFallback exSummarize exIds 8000
      scenarioBNow scenarioB "s" = ([], scenarioB) := by
  have hpts : ∀ (now : ℚ) (db : List Memory) (stats : SessionStats),
      calculateCompressionPoints now db stats = [] := by
    intro now db stats
    unfold calculateCompressionPoints
    cases stats.oldestMemory with
    | none => rfl
    | some oldest =>
      cases stats.newestMemory with
      | none => rfl
      | some newest =>
        simp [SessionStats.getSessionId, countEligibleForPoint_none]
  have had : ∀ (tok : String → ℕ) (summarize : List Memory → Option String)
      (newIds : ℕ → String) (threshold : ℕ) (now : ℚ) (db : List Memory)
      (sid : String),
      adaptiveCompression tok summarize newIds threshold now db sid =
        ([], db) := by
    intro tok summarize newIds threshold now db sid
    unfold adaptiveCompression
    by_cases h : (getSessionMemoryStats db sid).totalTokens < threshold
    · simp [h]
    · simp [h, hpts, compressLoop]
  exact ⟨hpts, had, by decide, had _ _ _ _ _ _ _⟩

/-- Counterexample to claim C9: on a session above the compression threshold,
the effect trace of one `save_message` call contains the full compression
pass *before* the return to the caller — `save_message` `await`s
`_check_compression_needed`, which `await`s `_compress_old_memories`, so the
call does not return before compression completes. -/
theorem save_message_trace_counterexample :
    saveMessageTrace [exBigMem] "s" 8000 =
      [Effect.dbSaveMessage, Effect.dbSaveMemory, Effect.dbUpdateSession,
       Effect.compressionPass, Effect.ret true] := by decide

/-- Claim C9 amended: whenever the session's token total exceeds the
threshold, the compression pass triggered by `save_message`'s compression
check completes before `save_message` returns — the check is `await`ed
inline on the request path (the detached, never-awaited compression is only
the agent's separate `adaptive_compression` task). -/
theorem save_message_awaits_compression (db : List Memory) (sid : String)
    (threshold : ℕ) (h : threshold < sessionTokenTotal db sid) :
    saveMessageTrace db sid threshold =
      [Effect.dbSaveMessage, Effect.dbSaveMemory, Effect.dbUpdateSession,
       Effect.compressionPass, Effect.ret true] := by
  simp [saveMessageTrace, checkCompressionTrace, h]

/-- Witness for the amended C9 at a concrete over-threshold session. -/
theorem save_message_awaits_compression_witness :
    10 < sessionTokenTotal dbFive "s" ∧
    saveMessageTrace dbFive "s" 10 =
      [Effect.dbSaveMessage, Effect.dbSaveMemory, Effect.dbUpdateSession,
       Effect.compressionPass, Effect.ret true] :=
  ⟨by decide, save_message_awaits_compression dbFive "s" 10 (by decide)⟩

/-- Counterexample to claim C8: `recompute_relevance_scores` is not
idempotent — a second run multiplies the already-decayed relevance by 0.95
again (1 → 0.95 → 0.9025). -/
theorem recompute_not_idempotent :
    recomputeRelevanceScores 200000
        (recomputeRelevanceScores 200000 [exOldMem] "s") "s" ≠
      recomputeRelevanceScores 200000 [exOldMem] "s" := by decide

/-- Claim C8 amended: each run of `recompute_relevance_scores` multiplies the
relevance of the session's memories older than 1 day by 0.95 and leaves the
younger ones unchanged; running it twice multiplies old memories by 0.95
twice (0.9025), so it is not idempotent. -/
theorem recompute_relevance_decay (now : ℚ) (db : List Memory)
    (sid : String) :
    (∀ m ∈ db, (m.sessionId = sid ∧ m.timestamp < now - 86400) →
      { m with relevanceScore := m.relevanceScore * (19 / 20) } ∈
        recomputeRelevanceScores now db sid) ∧
    (∀ m ∈ db, ¬(m.sessionId = sid ∧ m.timestamp < now - 86400) →
      m ∈ recomputeRelevanceScores now db sid) ∧
    recomputeRelevanceScores now (recomputeRelevanceScores now db sid) sid =
      db.map (fun m =>
        if m.sessionId = sid ∧ m.timestamp < now - 86400 then
          { m with relevanceScore := m.relevanceScore * (19 / 20) * (19 / 20) }
        else m) := by
  refine ⟨?_, ?_, ?_⟩
  · intro m hm hc
    have h2 := List.mem_map_of_mem (fun m : Memory =>
      if m.sessionId = sid ∧ m.timestamp < now - 86400 then
        { m with relevanceScore := m.relevanceScore * (19 / 20) }
      else m) hm
    simpa [recomputeRelevanceScores, if_pos hc] using h2
  · intro m hm hc
    have h2 := List.mem_map_of_mem (fun m : Memory =>
      if m.sessionId = sid ∧ m.timestamp < now - 86400 then
        { m with relevanceScore := m.relevanceScore * (19 / 20) }
      else m) hm
    simpa [recomputeRelevanceScores, if_neg hc] using h2
  · unfold recomputeRelevanceScores
    rw [List.map_map]
    apply List.map_congr_left
    intro m _
    by_cases hc : m.sessionId = sid ∧ m.timestamp < now - 86400
    · simp [Function.comp, hc]
    · simp [Function.comp, hc]

/-- Witness for the amended C8 at a concrete old memory. -/
theorem recompute_relevance_decay_witness :
    exOldMem ∈ [exOldMem] ∧
    (exOldMem.sessionId = "s" ∧ exOldMem.timestamp < 200000 - 86400) ∧
    { exOldMem with relevanceScore := exOldMem.relevanceScore * (19 / 20) } ∈
      recomputeRelevanceScores 200000 [exOldMem] "s" :=
  ⟨by decide, by decide,
    (recompute_relevance_decay 200000 [exOldMem] "s").1 exOldMem (by decide)
      (by decide)⟩

/-- Claim C5: `compress_memory_batch` is a no-op (no summary, memories table
unchanged) whenever fewer than 5 eligible memories exist; when it does
compress, the compressed ids are exactly the first 20 of the eligible list —
at most 20 memories — and the eligible list is ordered oldest-first. -/
theorem compress_batch_min_and_cap (tok : String → ℕ)
    (summarize : List Memory → Option String) (newId : String) (now : ℚ)
    (db : List Memory) (sid : String) (cutoff : ℚ) :
    ((findCompressibleMemories db sid cutoff).length < 5 →
      compressMemoryBatch tok summarize newId now db sid cutoff =
        (none, db)) ∧
    (∀ summ db2,
      compressMemoryBatch tok summarize newId now db sid cutoff =
        (some summ, db2) →
      summ.metadata.compressedMemoryIds =
        ((findCompressibleMemories db sid cutoff).take 20).map Memory.id ∧
      summ.metadata.compressedMemoryIds.length ≤ 20) ∧
    (findCompressibleMemories db sid cutoff).Pairwise
      (fun a b => a.timestamp ≤ b.timestamp) := by
  refine ⟨?_, ?_, sortK_sorted (fun m : Memory => m.timestamp) _⟩
  · intro h5
    simp [compressMemoryBatch, h5]
  · intro summ db2 h
    unfold compressMemoryBatch at h
    by_cases h5 : (findCompressibleMemories db sid cutoff).length < 5
    · simp [h5] at h
    · simp only [if_neg h5] at h
      cases hsum :
          summarize ((findCompressibleMemories db sid cutoff).take 20) with
      | none => rw [hsum] at h; simp at h
      | some summaryContent =>
        rw [hsum] at h
        by_cases hempty : summaryContent = ""
        · simp [hempty] at h
        simp only [if_neg hempty, Prod.mk.injEq, Option.some.injEq] at h
        obtain ⟨rfl, -⟩ := h
        refine ⟨rfl, ?_⟩
        simp only [List.length_map]
        exact List.length_take_le 20 (findCompressibleMemories db sid cutoff)

/-- Witness for C5: one eligible memory is below the minimum of 5, and the
call leaves the table untouched and returns no summary. -/
theorem compress_batch_min_and_cap_witness :
    (findCompressibleMemories dbOne "s" 100).length < 5 ∧
    compressMemoryBatch tokZero exSummarize "sum9" 999 dbOne "s" 100 =
      (none, dbOne) :=
  ⟨by decide,
    (compress_batch_min_and_cap tokZero exSummarize "sum9" 999 dbOne "s"
      100).1 (by decide)⟩

@[simp] theorem pairIds_cons (p : Memory × ℚ) (l : List (Memory × ℚ)) :
    pairIds (p :: l) = p.1.id :: pairIds l := rfl

@[simp] theorem entryIds_cons (e : Entry) (l : List Entry) :
    entryIds (e :: l) = e.memory.id :: entryIds l := rfl

@[simp] theorem entryIds_append (l1 l2 : List Entry) :
    entryIds (l1 ++ l2) = entryIds l1 ++ entryIds l2 := by
  simp [entryIds]

/-- `kwPatch` never changes the slot's memory. -/
theorem kwPatch_memory (kw : List (Memory × ℚ)) (e : Entry) :
    (kwPatch kw e).memory = e.memory := by
  unfold kwPatch
  split <;> rfl

@[simp] theorem kwPatch_nil (e : Entry) : kwPatch [] e = e := rfl

/-- The dict-membership test of the upsert, as id membership. -/
theorem any_id_iff (acc : List Entry) (i : String) :
    acc.any (fun e => decide (e.memory.id = i)) = true ↔ i ∈ entryIds acc := by
  rw [List.any_eq_true]
  unfold entryIds
  rw [List.mem_map]
  constructor
  · rintro ⟨e, he, hd⟩
    exact ⟨e, he, of_decide_eq_true hd⟩
  · rintro ⟨e, he, hd⟩
    exact ⟨e, he, decide_eq_true hd⟩

/-- `find?` by key on a list with pairwise-distinct keys locates exactly the
member with that key. -/
theorem find?_map_nodup {α β : Type} [DecidableEq β] (f : α → β) :
    ∀ (l : List α) (a : α), (l.map f).Nodup → a ∈ l →
      l.find? (fun x => decide (f x = f a)) = some a := by
  intro l
  induction l with
  | nil =>
    intro a _ h
    exact absurd h (List.not_mem_nil a)
  | cons b rest ih =>
    intro a hnd hmem
    by_cases hfb : f b = f a
    · have hba : b = a := by
        rcases List.mem_cons.mp hmem with h | h
        · exact h.symm
        · have h2 := List.mem_map_of_mem f h
          rw [← hfb] at h2
          exact absurd h2 (List.nodup_cons.mp (by simpa using hnd)).1
      rw [hba]
      exact List.find?_cons_of_pos _ (by simp)
    · have ha : a ∈ rest := by
        rcases List.mem_cons.mp hmem with h | h
        · exact absurd (by rw [h]) hfb
        · exact h
      rw [List.find?_cons_of_neg _ (by simpa using hfb)]
      exact ih a (List.nodup_cons.mp (by simpa using hnd)).2 ha

/-- The semantic loop over an id-disjoint accumulator appends one fresh slot
per semantic result, in order. -/
theorem foldl_addSemantic_eq (sem : List (Memory × ℚ)) :
    ∀ acc : List Entry, (∀ p ∈ sem, p.1.id ∉ entryIds acc) →
      (pairIds sem).Nodup →
      sem.foldl addSemantic acc = acc ++ sem.map mkSemEntry := by
  induction sem with
  | nil =>
    intro acc _ _
    simp
  | cons p rest ih =>
    intro acc hdisj hnd
    have hp : p.1.id ∉ entryIds acc := hdisj p (List.mem_cons_self p rest)
    have hpr : p.1.id ∉ pairIds rest :=
      (List.nodup_cons.mp (by simpa using hnd)).1
    have hadd : addSemantic acc p = acc ++ [mkSemEntry p] := by
      unfold addSemantic
      rw [if_neg]
      intro hany
      exact hp ((any_id_iff acc p.1.id).mp hany)
    rw [List.foldl_cons, hadd,
      ih (acc ++ [mkSemEntry p]) ?_ (List.nodup_cons.mp (by simpa using hnd)).2]
    · simp
    · intro q hq
      simp only [entryIds_append, List.mem_append]
      rintro (h | h)
      · exact hdisj q (List.mem_cons_of_mem p hq) h
      · have hq2 : q.1.id ∈ pairIds rest := List.mem_map_of_mem _ hq
        have hq3 : q.1.id = p.1.id := by
          simpa [entryIds, mkSemEntry] using h
        rw [hq3] at hq2
        exact hpr hq2

/-- The in-place keyword update keeps all slot ids. -/
theorem updK_entryIds (p : Memory × ℚ) (acc : List Entry) :
    entryIds (acc.map (updK p)) = entryIds acc := by
  unfold entryIds
  rw [List.map_map]
  apply List.map_congr_left
  intro e _
  by_cases h : e.memory.id = p.1.id <;> simp [updK, Function.comp, h]

/-- Updating the slot for a keyword result and patching with the remaining
keyword results equals patching with all of them (ids pairwise distinct). -/
theorem kwPatch_updK (p : Memory × ℚ) (rest : List (Memory × ℚ))
    (hp : p.1.id ∉ pairIds rest) (e : Entry) :
    kwPatch rest (updK p e) = kwPatch (p :: rest) e := by
  by_cases he : e.memory.id = p.1.id
  · have hfind : rest.find? (fun q => decide (q.1.id = e.memory.id)) = none := by
      rw [List.find?_eq_none]
      intro q hq
      simp only [decide_eq_true_eq]
      intro hqe
      apply hp
      rw [← he, ← hqe]
      exact List.mem_map_of_mem _ hq
    unfold updK kwPatch
    rw [if_pos he]
    simp only
    rw [hfind, List.find?_cons_of_pos _ (by simp [he])]
  · unfold updK kwPatch
    rw [if_neg he]
    rw [List.find?_cons_of_neg _ (by simp; exact fun h => he h.symm)]

/-- Patching with a list not containing the slot's id skips its head. -/
theorem kwPatch_cons_ne (p : Memory × ℚ) (rest : List (Memory × ℚ))
    (e : Entry) (hne : p.1.id ≠ e.memory.id) :
    kwPatch (p :: rest) e = kwPatch rest e := by
  unfold kwPatch
  rw [List.find?_cons_of_neg _ (by simpa using hne)]

/-- The keyword loop patches the existing slots in place and appends a fresh
slot for each keyword result whose id is not yet present, in order. -/
theorem foldl_addKeyword_eq (kw : List (Memory × ℚ)) :
    ∀ acc : List Entry, (pairIds kw).Nodup →
      kw.foldl addKeyword acc =
        acc.map (kwPatch kw) ++
          (kw.filter (fun p => decide (p.1.id ∉ entryIds acc))).map mkKwEntry := by
  induction kw with
  | nil =>
    intro acc _
    rw [List.map_congr_left (fun e _ => kwPatch_nil e)]
    simp
  | cons p rest ih =>
    intro acc hnd
    have hp : p.1.id ∉ pairIds rest :=
      (List.nodup_cons.mp (by simpa using hnd)).1
    have hndr : (pairIds rest).Nodup :=
      (List.nodup_cons.mp (by simpa using hnd)).2
    rw [List.foldl_cons]
    by_cases hmem : p.1.id ∈ entryIds acc
    · have hadd : addKeyword acc p = acc.map (updK p) := by
        unfold addKeyword
        rw [if_pos ((any_id_iff acc p.1.id).mpr hmem)]
      rw [hadd, ih _ hndr, List.map_map, updK_entryIds]
      have hmap : acc.map (kwPatch rest ∘ updK p) = acc.map (kwPatch (p :: rest)) :=
        List.map_congr_left (fun e _ => kwPatch_updK p rest hp e)
      have hfil : (p :: rest).filter (fun q => decide (q.1.id ∉ entryIds acc)) =
          rest.filter (fun q => decide (q.1.id ∉ entryIds acc)) := by
        rw [List.filter_cons]
        simp [hmem]
      rw [hmap, hfil]
    · have hadd : addKeyword acc p = acc ++ [mkKwEntry p] := by
        unfold addKeyword
        rw [if_neg (fun h => hmem ((any_id_iff acc p.1.id).mp h))]
      rw [hadd, ih _ hndr, List.map_append, entryIds_append]
      have hkp : kwPatch rest (mkKwEntry p) = mkKwEntry p := by
        unfold kwPatch
        have hfind : rest.find? (fun q =>
            decide (q.1.id = (mkKwEntry p).memory.id)) = none := by
          rw [List.find?_eq_none]
          intro q hq
          simp only [decide_eq_true_eq]
          intro hqe
          apply hp
          rw [← (by rfl : (mkKwEntry p).memory.id = p.1.id), ← hqe]
          exact List.mem_map_of_mem _ hq
        rw [hfind]
      have hmap : acc.map (kwPatch rest) = acc.map (kwPatch (p :: rest)) := by
        apply List.map_congr_left
        intro e he
        refine (kwPatch_cons_ne p rest e ?_).symm
        intro hpe
        exact hmem (hpe ▸ List.mem_map_of_mem _ he)
      have hfil : rest.filter (fun q =>
          decide (q.1.id ∉ entryIds acc ++ entryIds [mkKwEntry p])) =
          rest.filter (fun q => decide (q.1.id ∉ entryIds acc)) := by
        apply List.filter_congr
        intro q hq
        have hqp : q.1.id ≠ p.1.id := by
          intro h
          exact hp (h ▸ List.mem_map_of_mem _ hq)
        simp [entryIds, mkKwEntry, hqp]
      have hfil2 : (p :: rest).filter (fun q => decide (q.1.id ∉ entryIds acc)) =
          p :: rest.filter (fun q => decide (q.1.id ∉ entryIds acc)) := by
        rw [List.filter_cons]
        simp [hmem]
      rw [hmap, hfil, hfil2]
      simp [hkp]

/-- The `combined_scores` dict at the end of the merge: the semantic slots
(patched in place with their keyword scores) followed by the keyword-only
slots, in branch order. -/
theorem combinedEntries_eq (sem kw : List (Memory × ℚ))
    (h1 : (pairIds sem).Nodup) (h2 : (pairIds kw).Nodup) :
    combinedEntries sem kw =
      (sem.map mkSemEntry).map (kwPatch kw) ++ kwOnlyEntries sem kw := by
  unfold combinedEntries kwOnlyEntries
  rw [foldl_addSemantic_eq sem [] (by simp [entryIds]) h1, List.nil_append,
    foldl_addKeyword_eq kw (sem.map mkSemEntry) h2]
  have hids : entryIds (sem.map mkSemEntry) = pairIds sem := by
    unfold entryIds pairIds mkSemEntry
    rw [List.map_map]
    rfl
  rw [hids]

/-- The dict ids are pairwise distinct at the end of the merge. -/
theorem combinedEntries_ids_nodup (sem kw : List (Memory × ℚ))
    (h1 : (pairIds sem).Nodup) (h2 : (pairIds kw).Nodup) :
    (entryIds (combinedEntries sem kw)).Nodup := by
  rw [combinedEntries_eq sem kw h1 h2, entryIds_append]
  have hfirst : entryIds ((sem.map mkSemEntry).map (kwPatch kw)) =
      pairIds sem := by
    unfold entryIds pairIds
    rw [List.map_map, List.map_map]
    apply List.map_congr_left
    intro p _
    show (kwPatch kw (mkSemEntry p)).memory.id = p.1.id
    rw [kwPatch_memory]
    rfl
  have hsecond : entryIds (kwOnlyEntries sem kw) =
      (kw.filter (fun p => decide (p.1.id ∉ pairIds sem))).map
        (fun p => p.1.id) := by
    unfold kwOnlyEntries entryIds
    rw [List.map_map]
    rfl
  rw [hfirst, hsecond]
  refine List.Nodup.append h1 ?_ ?_
  · exact List.Nodup.sublist
      (List.Sublist.map _ (List.filter_sublist kw)) h2
  · intro a ha hb
    obtain ⟨p, hp, rfl⟩ := List.mem_map.mp hb
    exact (of_decide_eq_true (List.mem_filter.mp hp).2) ha

/-- Every final dict slot is a patched semantic slot or a keyword-only
slot. -/
theorem combined_entry_char (sem kw : List (Memory × ℚ))
    (h1 : (pairIds sem).Nodup) (h2 : (pairIds kw).Nodup) :
    ∀ e ∈ combinedEntries sem kw,
      (∃ p ∈ sem, e = kwPatch kw (mkSemEntry p)) ∨
      (∃ p ∈ kw, p.1.id ∉ pairIds sem ∧ e = mkKwEntry p) := by
  intro e he
  rw [combinedEntries_eq sem kw h1 h2] at he
  rcases List.mem_append.mp he with h | h
  · obtain ⟨e1, he1, rfl⟩ := List.mem_map.mp h
    obtain ⟨p, hp, rfl⟩ := List.mem_map.mp he1
    exact Or.inl ⟨p, hp, rfl⟩
  · obtain ⟨p, hp, rfl⟩ := List.mem_map.mp h
    have h3 := List.mem_filter.mp hp
    exact Or.inr ⟨p, h3.1, of_decide_eq_true h3.2, rfl⟩

/-- A slot whose id has no keyword result is not patched. -/
theorem kwPatch_eq_of_not_mem (kw : List (Memory × ℚ)) (e : Entry)
    (h : e.memory.id ∉ pairIds kw) : kwPatch kw e = e := by
  unfold kwPatch
  have hfind : kw.find? (fun p => decide (p.1.id = e.memory.id)) = none := by
    rw [List.find?_eq_none]
    intro p hp
    simp only [decide_eq_true_eq]
    intro hq
    exact h (hq ▸ List.mem_map_of_mem _ hp)
  rw [hfind]

/-- A slot whose id has a keyword result gets exactly that result's score. -/
theorem kwPatch_eq_of_mem (kw : List (Memory × ℚ))
    (h2 : (pairIds kw).Nodup) (m : Memory) (t : ℚ) (hmt : (m, t) ∈ kw)
    (e : Entry) (hid : e.memory.id = m.id) :
    kwPatch kw e = { e with keywordScore := t } := by
  unfold kwPatch
  have hfind : kw.find? (fun p => decide (p.1.id = e.memory.id)) =
      some (m, t) := by
    rw [hid]
    exact find?_map_nodup (fun p : Memory × ℚ => p.1.id) kw (m, t) h2 hmt
  rw [hfind]

/-- Claim C2: the fused score of a memory appearing only in the semantic
branch is `0.7·semantic`, only in the keyword branch `0.3·keyword`, in both
`0.7·semantic + 0.3·keyword`; and every merged memory whose fused score is
below `min_relevance` is dropped from the result of `hybrid_search`. -/
theorem hybrid_fusion_weights (sem kw : List (Memory × ℚ)) (minRel : ℚ)
    (limit : ℕ) (h1 : (pairIds sem).Nodup) (h2 : (pairIds kw).Nodup) :
    (∀ m s, (m, s) ∈ sem → m.id ∉ pairIds kw →
      Entry.mk m s 0 ∈ combinedEntries sem kw ∧
      ∀ e ∈ combinedEntries sem kw, e.memory.id = m.id →
        hybridScore e = (7 / 10) * s) ∧
    (∀ m t, (m, t) ∈ kw → m.id ∉ pairIds sem →
      Entry.mk m 0 t ∈ combinedEntries sem kw ∧
      ∀ e ∈ combinedEntries sem kw, e.memory.id = m.id →
        hybridScore e = (3 / 10) * t) ∧
    (∀ m s m2 t, (m, s) ∈ sem → (m2, t) ∈ kw → m2.id = m.id →
      Entry.mk m s t ∈ combinedEntries sem kw ∧
      ∀ e ∈ combinedEntries sem kw, e.memory.id = m.id →
        hybridScore e = (7 / 10) * s + (3 / 10) * t) ∧
    (∀ e ∈ combinedEntries sem kw, hybridScore e < minRel →
      ∀ m2 ∈ hybridSearchMerge sem kw minRel limit,
        m2.id ≠ e.memory.id) := by
  have hmemfirst : ∀ p ∈ sem,
      kwPatch kw (mkSemEntry p) ∈ combinedEntries sem kw := by
    intro p hp
    rw [combinedEntries_eq sem kw h1 h2]
    exact List.mem_append_left _
      (List.mem_map_of_mem _ (List.mem_map_of_mem _ hp))
  refine ⟨?_, ?_, ?_, ?_⟩
  · intro m s hms hna
    have hpatch : kwPatch kw (mkSemEntry (m, s)) = Entry.mk m s 0 :=
      kwPatch_eq_of_not_mem kw (mkSemEntry (m, s)) hna
    refine ⟨hpatch ▸ hmemfirst (m, s) hms, ?_⟩
    intro e he hid
    rcases combined_entry_char sem kw h1 h2 e he with ⟨p, hp, rfl⟩ | ⟨p, hp, hni, rfl⟩
    · have hpid : p.1.id = (m, s).1.id := by
        have := kwPatch_memory kw (mkSemEntry p)
        rw [show (kwPatch kw (mkSemEntry p)).memory.id = p.1.id from by
          rw [this]; rfl] at hid
        exact hid
      have hpe : p = (m, s) :=
        List.inj_on_of_nodup_map h1 hp hms hpid
      rw [hpe, hpatch]
      unfold hybridScore
      ring
    · exfalso
      have hpid : p.1.id = m.id := hid
      exact hni (hpid ▸ List.mem_map_of_mem _ hms)
  · intro m t hmt hna
    have hmem2 : Entry.mk m 0 t ∈ combinedEntries sem kw := by
      rw [combinedEntries_eq sem kw h1 h2]
      refine List.mem_append_right _ ?_
      unfold kwOnlyEntries
      have hmf : (m, t) ∈ kw.filter
          (fun p => decide (p.1.id ∉ pairIds sem)) := by
        rw [List.mem_filter]
        exact ⟨hmt, decide_eq_true hna⟩
      exact List.mem_map_of_mem mkKwEntry hmf
    refine ⟨hmem2, ?_⟩
    intro e he hid
    rcases combined_entry_char sem kw h1 h2 e he with ⟨p, hp, rfl⟩ | ⟨p, hp, hni, rfl⟩
    · exfalso
      have hpid : p.1.id = m.id := by
        have := kwPatch_memory kw (mkSemEntry p)
        rw [show (kwPatch kw (mkSemEntry p)).memory.id = p.1.id from by
          rw [this]; rfl] at hid
        exact hid
      exact hna (hpid ▸ List.mem_map_of_mem _ hp)
    · have hpe : p = (m, t) :=
        List.inj_on_of_nodup_map h2 hp hmt hid
      rw [hpe]
      unfold hybridScore mkKwEntry
      ring
  · intro m s m2 t hms hmt hmm
    have hid0 : (mkSemEntry (m, s)).memory.id = m2.id := hmm.symm
    have hpatch : kwPatch kw (mkSemEntry (m, s)) = Entry.mk m s t :=
      kwPatch_eq_of_mem kw h2 m2 t hmt (mkSemEntry (m, s)) hid0
    refine ⟨hpatch ▸ hmemfirst (m, s) hms, ?_⟩
    intro e he hid
    rcases combined_entry_char sem kw h1 h2 e he with ⟨p, hp, rfl⟩ | ⟨p, hp, hni, rfl⟩
    · have hpid : p.1.id = (m, s).1.id := by
        have := kwPatch_memory kw (mkSemEntry p)
        rw [show (kwPatch kw (mkSemEntry p)).memory.id = p.1.id from by
          rw [this]; rfl] at hid
        exact hid
      have hpe : p = (m, s) :=
        List.inj_on_of_nodup_map h1 hp hms hpid
      rw [hpe, hpatch]
      unfold hybridScore
      ring
    · exfalso
      have hpid : p.1.id = m.id := hid
      exact hni (hpid ▸ List.mem_map_of_mem _ hms)
  · intro e he hlt m2 hm2 hid
    unfold hybridSearchMerge at hm2
    obtain ⟨pair, hpair, rfl⟩ := List.mem_map.mp hm2
    have hp2 : pair ∈ sortK (fun p => -p.2) (filteredPairs sem kw minRel) :=
      List.mem_of_mem_take hpair
    have hp3 : pair ∈ filteredPairs sem kw minRel :=
      (mem_sortK _ _ pair).mp hp2
    unfold filteredPairs at hp3
    have hp4 := List.mem_filter.mp hp3
    have hge : minRel ≤ pair.2 := of_decide_eq_true hp4.2
    unfold scoredPairs at hp4
    obtain ⟨e2, he2, heq⟩ := List.mem_map.mp hp4.1
    have hiq : e2.memory.id = e.memory.id := by
      rw [← heq] at hid
      exact hid
    have hee : e2 = e :=
      List.inj_on_of_nodup_map (combinedEntries_ids_nodup sem kw h1 h2)
        he2 he hiq
    rw [← heq, hee] at hge
    exact absurd hge (not_le.mpr hlt)

/-- Witness for C2 at a concrete one-element pair of branch lists. -/
theorem hybrid_fusion_weights_witness :
    (pairIds [(exMemA, (1 : ℚ) / 2)]).Nodup ∧
    (pairIds [(exMemB, (1 : ℚ) / 2)]).Nodup ∧
    Entry.mk exMemA ((1 : ℚ) / 2) 0 ∈
      combinedEntries [(exMemA, (1 : ℚ) / 2)] [(exMemB, (1 : ℚ) / 2)] :=
  ⟨by decide, by decide,
    ((hybrid_fusion_weights [(exMemA, (1 : ℚ) / 2)] [(exMemB, (1 : ℚ) / 2)]
        (3 / 10) 10 (by decide) (by decide)).1 exMemA ((1 : ℚ) / 2)
      (by decide) (by decide)).1⟩

/-- Counterexample to claim C7: two memories fused to equal scores keep the
dict-insertion order — the OLDER memory (`exMemA`) comes first, not the most
recent one, so ties are not broken by timestamp descending. -/
theorem hybrid_sort_tie_counterexample :
    hybridSearchMerge [(exMemA, (1 : ℚ) / 2), (exMemB, (1 : ℚ) / 2)] []
        (3 / 10) 10 = [exMemA, exMemB] ∧
    hybridScore (Entry.mk exMemA ((1 : ℚ) / 2) 0) =
      hybridScore (Entry.mk exMemB ((1 : ℚ) / 2) 0) ∧
    exMemA.timestamp < exMemB.timestamp ∧
    hybridSearchMerge [(exMemA, (1 : ℚ) / 2), (exMemB, (1 : ℚ) / 2)] []
        (3 / 10) 10 ≠ [exMemB, exMemA] :=
  ⟨by decide, by decide, by decide, by decide⟩

/-- Claim C7 amended: `hybrid_search` returns the fused pairs sorted by score
descending with ties left in merge order (Python's stable sort over the dict
iteration order: semantic slots first, then keyword-only slots), truncated
to at most `limit` memories. Sortedness, the length bound, and stability
(the subsequence at any fixed score is unchanged by the sort) are proved. -/
theorem hybrid_sort_ranking (sem kw : List (Memory × ℚ)) (minRel : ℚ)
    (limit : ℕ) :
    hybridSearchMerge sem kw minRel limit =
      ((sortK (fun p => -p.2) (filteredPairs sem kw minRel)).take limit).map
        Prod.fst ∧
    (sortK (fun p => -p.2) (filteredPairs sem kw minRel)).Pairwise
      (fun a b => b.2 ≤ a.2) ∧
    (hybridSearchMerge sem kw minRel limit).length ≤ limit ∧
    (∀ q : ℚ,
      (sortK (fun p => -p.2) (filteredPairs sem kw minRel)).filter
        (fun p => decide (p.2 = q)) =
      (filteredPairs sem kw minRel).filter (fun p => decide (p.2 = q))) := by
  refine ⟨rfl, ?_, ?_, ?_⟩
  · exact (sortK_sorted (fun p : Memory × ℚ => -p.2)
      (filteredPairs sem kw minRel)).imp (fun h => neg_le_neg_iff.mp h)
  · unfold hybridSearchMerge
    rw [List.length_map]
    exact List.length_take_le limit _
  · intro q
    have hcong : ∀ l : List (Memory × ℚ),
        l.filter (fun a => decide (-a.2 = -q)) =
          l.filter (fun p => decide (p.2 = q)) := by
      intro l
      apply List.filter_congr
      intro p _
      simp [neg_inj]
    have hs := sortK_stable (fun p : Memory × ℚ => -p.2) (-q)
      (filteredPairs sem kw minRel)
    rw [← hcong, hs, hcong]

/-- A batch of id-keyed row updates (one `UPDATE ... WHERE id = ?` per batch
member, batch ids pairwise distinct, updates preserving ids) acts on the
table as a single pointwise map. -/
theorem foldl_update_eq (f : Memory → Memory → Memory)
    (hpres : ∀ m x, (f m x).id = x.id) :
    ∀ (batch db : List Memory), (batch.map Memory.id).Nodup →
      batch.foldl (fun acc m =>
        acc.map (fun x => if x.id = m.id then f m x else x)) db =
      db.map (applyUpdate f batch) := by
  intro batch
  induction batch with
  | nil =>
    intro db _
    symm
    exact (List.map_congr_left
      (fun x _ => (rfl : applyUpdate f [] x = x))).trans (List.map_id db)
  | cons m rest ih =>
    intro db hnd
    have hm : m.id ∉ rest.map Memory.id := (List.nodup_cons.mp hnd).1
    have hndr := (List.nodup_cons.mp hnd).2
    rw [List.foldl_cons, ih _ hndr, List.map_map]
    apply List.map_congr_left
    intro x _
    show applyUpdate f rest (if x.id = m.id then f m x else x) =
      applyUpdate f (m :: rest) x
    by_cases hx : x.id = m.id
    · rw [if_pos hx]
      have hfind : rest.find? (fun m2 => decide (m2.id = (f m x).id)) =
          none := by
        rw [List.find?_eq_none]
        intro m2 hm2
        simp only [decide_eq_true_eq]
        rw [hpres m x, hx]
        intro he
        exact hm (he ▸ List.mem_map_of_mem _ hm2)
      unfold applyUpdate
      rw [hfind, List.find?_cons_of_pos _ (by simp [hx])]
    · rw [if_neg hx]
      unfold applyUpdate
      rw [List.find?_cons_of_neg _ (by simp; exact fun h => hx h.symm)]

/-- Eligible memories are rows of the table. -/
theorem findCompressibleMemories_sub (db : List Memory) (sid : String)
    (cutoff : ℚ) : ∀ m ∈ findCompressibleMemories db sid cutoff, m ∈ db := by
  intro m hm
  unfold findCompressibleMemories at hm
  exact List.mem_of_mem_filter ((mem_sortK _ _ m).mp hm)

/-- Eligible ids inherit distinctness from the table. -/
theorem findCompressibleMemories_ids_nodup (db : List Memory) (sid : String)
    (cutoff : ℚ) (hid : (db.map Memory.id).Nodup) :
    ((findCompressibleMemories db sid cutoff).map Memory.id).Nodup := by
  unfold findCompressibleMemories
  have h1 : ((db.filter (fun m => decide (m.sessionId = sid ∧
      m.timestamp < cutoff ∧ m.memoryType ≠ MemoryType.summary ∧
      (3 / 10) < m.relevanceScore))).map Memory.id).Nodup :=
    List.Nodup.sublist (List.Sublist.map Memory.id (List.filter_sublist db))
      hid
  exact (List.Perm.nodup_iff ((sortK_perm _ _).map Memory.id)).mpr h1

/-- The `_compress_old_memories` rows are rows of the table. -/
theorem oldCompressibleRows_sub (now : ℚ) (db : List Memory) (sid : String) :
    ∀ m ∈ oldCompressibleRows now db sid, m ∈ db := by
  intro m hm
  unfold oldCompressibleRows at hm
  exact List.mem_of_mem_filter
    ((mem_sortK _ _ m).mp (List.mem_of_mem_take hm))

/-- The `_compress_old_memories` row ids inherit distinctness. -/
theorem oldCompressibleRows_ids_nodup (now : ℚ) (db : List Memory)
    (sid : String) (hid : (db.map Memory.id).Nodup) :
    ((oldCompressibleRows now db sid).map Memory.id).Nodup := by
  unfold oldCompressibleRows
  have h1 : ((db.filter (fun m => decide (m.sessionId = sid ∧
      m.timestamp < now - 3600 ∧ m.memoryType ≠ MemoryType.summary ∧
      m.compressionRatio = 1))).map Memory.id).Nodup :=
    List.Nodup.sublist (List.Sublist.map Memory.id (List.filter_sublist db))
      hid
  have h2 := (List.Perm.nodup_iff
    ((sortK_perm (fun m : Memory => m.timestamp)
      (db.filter (fun m => decide (m.sessionId = sid ∧
        m.timestamp < now - 3600 ∧ m.memoryType ≠ MemoryType.summary ∧
        m.compressionRatio = 1)))).map Memory.id)).mpr h1
  exact List.Nodup.sublist
    (List.Sublist.map Memory.id (List.take_sublist _ _)) h2

/-- Claim C3 amended: after a successful `compress_memory_batch`, the
summary's metadata lists exactly the batch ids, the table keeps every source
memory (one row is added, none deleted), and every batch member's row has
relevance `×0.2` of its pre-compression value and the `compressed` tag set.
The memory manager's `_compress_old_memories` fallback path, however, decays
its batch by `×0.3` and sets no `compressed` tag. -/
theorem compression_decay_paths (tok : String → ℕ)
    (summarize : List Memory → Option String) (newId : String) (now : ℚ)
    (db : List Memory) (sid : String) (cutoff : ℚ)
    (hid : (db.map Memory.id).Nodup) :
    (∀ summ db2,
      compressMemoryBatch tok summarize newId now db sid cutoff =
        (some summ, db2) →
      summ.metadata.compressedMemoryIds =
        ((findCompressibleMemories db sid cutoff).take 20).map Memory.id ∧
      db2.length = db.length + 1 ∧
      ∀ m ∈ (findCompressibleMemories db sid cutoff).take 20,
        ∃ x ∈ db2, x.id = m.id ∧
          x.relevanceScore = m.relevanceScore * (1 / 5) ∧
          x.metadata.compressed = true) ∧
    (¬(oldCompressibleRows now db sid).length < 5 →
      ∀ m ∈ oldCompressibleRows now db sid,
        ∃ x ∈ compressOldMemories tok newId now db sid, x.id = m.id ∧
          x.relevanceScore = m.relevanceScore * (3 / 10) ∧
          x.metadata.compressed = m.metadata.compressed) := by
  constructor
  · intro summ db2 h
    unfold compressMemoryBatch at h
    by_cases h5 : (findCompressibleMemories db sid cutoff).length < 5
    · simp [h5] at h
    · simp only [if_neg h5] at h
      cases hsum :
          summarize ((findCompressibleMemories db sid cutoff).take 20) with
      | none => rw [hsum] at h; simp at h
      | some summaryContent =>
        rw [hsum] at h
        by_cases hempty : summaryContent = ""
        · simp [hempty] at h
        simp only [if_neg hempty, Prod.mk.injEq, Option.some.injEq] at h
        obtain ⟨rfl, rfl⟩ := h
        have hbn : (((findCompressibleMemories db sid cutoff).take 20).map
            Memory.id).Nodup :=
          List.Nodup.sublist
            (List.Sublist.map Memory.id (List.take_sublist _ _))
            (findCompressibleMemories_ids_nodup db sid cutoff hid)
        have hfold := foldl_update_eq markCompressedUpdate
          (fun _ _ => rfl) ((findCompressibleMemories db sid cutoff).take 20)
        refine ⟨rfl, ?_, ?_⟩
        · show (markMemoriesCompressed _ _).length = db.length + 1
          unfold markMemoriesCompressed
          rw [hfold _ hbn, List.length_map, List.length_append]
          rfl
        · intro m hm
          have hmdb : m ∈ db :=
            findCompressibleMemories_sub db sid cutoff m
              (List.mem_of_mem_take hm)
          have hfm : ((findCompressibleMemories db sid cutoff).take 20).find?
              (fun m2 => decide (m2.id = m.id)) = some m :=
            find?_map_nodup Memory.id _ m hbn hm
          refine ⟨applyUpdate markCompressedUpdate
            ((findCompressibleMemories db sid cutoff).take 20) m, ?_, ?_⟩
          · show _ ∈ markMemoriesCompressed _ _
            unfold markMemoriesCompressed
            rw [hfold _ hbn]
            exact List.mem_map_of_mem _ (List.mem_append_left _ hmdb)
          · unfold applyUpdate
            rw [hfm]
            exact ⟨rfl, rfl, rfl⟩
  · intro h5 m hm
    have hmdb : m ∈ db := oldCompressibleRows_sub now db sid m hm
    have hbn := oldCompressibleRows_ids_nodup now db sid hid
    have hfm : (oldCompressibleRows now db sid).find?
        (fun m2 => decide (m2.id = m.id)) = some m :=
      find?_map_nodup Memory.id _ m hbn hm
    have hfold := foldl_update_eq oldDecayUpdate (fun _ _ => rfl)
      (oldCompressibleRows now db sid)
    refine ⟨applyUpdate oldDecayUpdate (oldCompressibleRows now db sid) m,
      ?_, ?_⟩
    · unfold compressOldMemories
      simp only [if_neg h5]
      rw [hfold _ hbn]
      exact List.mem_map_of_mem _ (List.mem_append_left _ hmdb)
    · unfold applyUpdate
      rw [hfm]
      exact ⟨rfl, rfl, rfl⟩

/-- Counterexample to claim C3: on a concrete successful batch of the
`_compress_old_memories` path (one of the two compression paths the claim
covers), the source memory `m1` ends at relevance `0.3` of its
pre-compression value — not `0.2` — and carries no `compressed` tag. -/
theorem compress_old_decay_counterexample :
    ((compressOldMemories calculateTokenCountFallback "sum2" 100000 dbFive
        "s").find? (fun x => decide (x.id = "m1"))).map Memory.relevanceScore =
      some (3 / 10) ∧
    ((compressOldMemories calculateTokenCountFallback "sum2" 100000 dbFive
        "s").find? (fun x => decide (x.id = "m1"))).map
        (fun x => x.metadata.compressed) = some false ∧
    (3 : ℚ) / 10 ≠ 1 / 5 :=
  ⟨by decide, by decide, by decide⟩

/-- Witness for the amended C3 at a concrete summarizer batch. -/
theorem compression_decay_paths_witness :
    (dbFive.map Memory.id).Nodup ∧
    ∃ x ∈ (compressMemoryBatch tokZero exSummarize "sum1" 999 dbFive "s"
        100).2,
      x.id = (exMem "m1" 0).id ∧
      x.relevanceScore = (exMem "m1" 0).relevanceScore * (1 / 5) ∧
      x.metadata.compressed = true :=
  ⟨by decide,
    ((compression_decay_paths tokZero exSummarize "sum1" 999 dbFive "s" 100
        (by decide)).1 exSummaryZero
      (compressMemoryBatch tokZero exSummarize "sum1" 999 dbFive "s" 100).2
      (by decide)).2.2 (exMem "m1" 0) (by decide)⟩

/-- Witness for C10: a concrete batch whose tokenizer reports a zero-token
summary still gets ratio 1. -/
theorem compression_ratio_zero_guard_witness :
    (compressMemoryBatch tokZero exSummarize "sum1" 999 dbFive "s" 100).1 =
      some exSummaryZero ∧
    exSummaryZero.tokenCount = 0 ∧
    exSummaryZero.compressionRatio = 1 :=
  ⟨by decide, rfl,
    (compression_ratio_zero_guard tokZero exSummarize "sum1" 999 dbFive "s"
        100).2.2 exSummaryZero
      (compressMemoryBatch tokZero exSummarize "sum1" 999 dbFive "s" 100).2
      (by decide) rfl⟩

end EverMind
